import Mathlib

/-!
Verification of the overlapping-model core of a Wave-Function-Collapse texture
synthesizer (`src/overlappingmodel.rs`), as a shallow embedding.

Modelling conventions:
* Colors (`RGB`) are opaque totally-ordered values; we embed them as `ℕ`
  (only comparison and equality of colors matter anywhere in the core).
* `bit_vec::BitVec` is embedded as `List Bool`.
* `ndarray::Array2` is embedded as a row-major `List` with explicit
  `rows`/`cols` fields.
* `f64` appears in two roles.  In the entropy computation the values are
  exact real expressions built from naturals by division, `ln` and products;
  we embed them as `EF` (an exact real together with a NaN element; `ln` of a
  non-positive argument and division by zero are NaN — at every argument the
  code can reach in the properties below this agrees with IEEE semantics,
  because the IEEE `-inf` produced at `ln 0` is immediately multiplied by `0`,
  giving NaN).  In the minimum-entropy scan the values are only *compared*;
  since every finite `f64` is a rational and `f64` comparison agrees with
  rational comparison (with all comparisons against NaN false), we embed the
  scanned values as `F64` (a rational or NaN) and the initial accumulator
  `f64::MAX` as the exact rational `(2^53 - 1) * 2^971`.
* Panics (`expect` on a bitset index or a palette miss) are embedded as
  out-of-range default reads; no property below depends on a panicking run.
* `utils::masked_weighted_choice` and the random source are not part of the
  given sources; they are modelled from the spec with an explicit draw
  parameter.
-/

/-- Colors are opaque, totally ordered values (spec §3); embedded as `ℕ`. -/
abbrev RGB := ℕ

/-- Row-major 2-D array, embedding `ndarray::Array2`. -/
structure Array2 (α : Type) where
  rows : ℕ
  cols : ℕ
  data : List α
deriving DecidableEq

instance {α : Type} : Inhabited (Array2 α) := ⟨⟨0, 0, []⟩⟩

/-- Element lookup at a `(row, col)` coordinate (out of range reads a default,
standing in for the panic ndarray would raise). -/
def Array2.get2 {α : Type} [Inhabited α] (a : Array2 α) (coord : ℕ × ℕ) : α :=
  a.data.getD (coord.1 * a.cols + coord.2) default

/-- `ndarray`'s `indexed_iter`: row-major `((i, j), element)` pairs. -/
def Array2.indexedIter {α : Type} (a : Array2 α) : List ((ℕ × ℕ) × α) :=
  ((List.range a.rows).flatMap (fun i => (List.range a.cols).map (fun j => (i, j)))).zip a.data

/-- One output-grid cell: the two possibility bitsets (`UncertainCell`). -/
structure UncertainCell where
  possible_colors : List Bool
  possible_states : List Bool
deriving DecidableEq

instance : Inhabited UncertainCell := ⟨⟨[], []⟩⟩

/-- `UncertainCell::valid_color` (the source panics on an out-of-range index;
we read `false` there instead). -/
def UncertainCell.valid_color (cell : UncertainCell) (palette_index : ℕ) : Bool :=
  cell.possible_colors.getD palette_index false

/-- Exact model of the `f64` values occurring in the entropy computation:
an exact real number or NaN.  `ln` of a non-positive argument and division by
zero produce NaN (see the file header for why this is faithful here). -/
inductive EF where
  | nan : EF
  | val : ℝ → EF

def EF.add : EF → EF → EF
  | EF.val a, EF.val b => EF.val (a + b)
  | _, _ => EF.nan

def EF.mul : EF → EF → EF
  | EF.val a, EF.val b => EF.val (a * b)
  | _, _ => EF.nan

def EF.neg : EF → EF
  | EF.val a => EF.val (-a)
  | EF.nan => EF.nan

noncomputable def EF.div : EF → EF → EF
  | EF.val a, EF.val b => if b = 0 then EF.nan else EF.val (a / b)
  | _, _ => EF.nan

noncomputable def EF.ln : EF → EF
  | EF.val a => if 0 < a then EF.val (Real.log a) else EF.nan
  | EF.nan => EF.nan

/-- `UncertainCell::entropy`, transcribed from the source: `None` when no
state bit is set, `0` when exactly one is set, and otherwise the negated sum
of `t * ln t` where `t = x * ln x` and `x = count / possible_state_count`
(the source applies the `x * x.ln()` step twice; lines 55–64). -/
noncomputable def UncertainCell.entropy {α : Type} (cell : UncertainCell)
    (concrete_states : List (α × ℕ)) : Option EF :=
  let possible_states := cell.possible_states
  if possible_states.all (fun p => !p) then none
  else if (possible_states.filter (fun p => p)).length = 1 then some (EF.val 0)
  else
    let counts : List ℕ :=
      (((concrete_states.map Prod.snd).zip possible_states).filter (fun wp => wp.2)).map Prod.fst
    let possible_state_count : EF := EF.val ((counts.sum : ℕ) : ℝ)
    let terms : List EF :=
      (counts.map (fun count : ℕ =>
        let x := EF.div (EF.val (count : ℝ)) possible_state_count
        EF.mul x (EF.ln x))).map (fun x => EF.mul x (EF.ln x))
    some (EF.neg (terms.foldl EF.add (EF.val 0)))

/-- The weights of the remaining (still possible) states. -/
def remainingWeights (weights : List ℕ) (ps : List Bool) : List ℕ :=
  ((weights.zip ps).filter (fun wp => wp.2)).map Prod.fst

/-- The entropy the spec states as the intended contract (§4.2): standard
Shannon entropy over the remaining states, weights normalized by their sum. -/
noncomputable def shannon_entropy (weights : List ℕ) (ps : List Bool) : ℝ :=
  -(((remainingWeights weights ps).map (fun w : ℕ =>
      ((w : ℝ) / (((remainingWeights weights ps).sum : ℕ) : ℝ)) *
        Real.log ((w : ℝ) / (((remainingWeights weights ps).sum : ℕ) : ℝ)))).sum)

/-- Eligible `(index, weight)` pairs of a weight list under a mask. -/
def maskedWeights : ℕ → List ℕ → List Bool → List (ℕ × ℕ)
  | _, [], _ => []
  | _, _ :: _, [] => []
  | i, w :: ws, b :: bs =>
    if b then (i, w) :: maskedWeights (i + 1) ws bs else maskedWeights (i + 1) ws bs

/-- Walk the cumulative weights; the last eligible index is the fallback. -/
def pickWeighted : List (ℕ × ℕ) → ℕ → ℕ
  | [], _ => 0
  | [p], _ => p.1
  | p :: q :: rest, r => if r < p.2 then p.1 else pickWeighted (q :: rest) (r - p.2)

/-- Modelled from the spec: `utils::masked_weighted_choice` is not among the
given sources.  Per spec §6 it takes `(value, weight)` pairs and a boolean
eligibility mask and returns one chosen value-index, drawn with probability
proportional to its weight among the eligible entries; the random source is
modelled as an explicit draw `r` (spec §9 asks for explicit RNG state). -/
def masked_weighted_choice {α : Type} (concrete_states : List (α × ℕ))
    (mask : List Bool) (r : ℕ) : ℕ :=
  let eligible := maskedWeights 0 (concrete_states.map Prod.snd) mask
  pickWeighted eligible (r % (eligible.map Prod.snd).sum)

/-- `UncertainCell::collapse`: clear the state bitset and set only the chosen
state's bit (`BitVec::clear` then `set`). -/
def UncertainCell.collapse {α : Type} (cell : UncertainCell)
    (concrete_states : List (α × ℕ)) (r : ℕ) : UncertainCell :=
  let chosen_state := masked_weighted_choice concrete_states cell.possible_states r
  { cell with
    possible_states := (List.replicate cell.possible_states.length false).set chosen_state true }

/-- The model: grid of cells, palette, pattern catalog, block side length. -/
structure OverlappingModel where
  model : Array2 UncertainCell
  palette : List RGB
  states : List (Array2 RGB × ℕ)
  state_size : ℕ

/-- `OverlappingModel::valid_coordinate`. -/
def OverlappingModel.valid_coordinate (m : OverlappingModel) (coord : ℕ × ℕ) : Bool :=
  decide (coord.1 < m.model.rows) && decide (coord.2 < m.model.cols)

/-- Modelled contract of `slice::binary_search` on the sorted, deduplicated
palette: the index of the matching element when present. -/
def binary_search (xs : List RGB) (c : RGB) : Option ℕ :=
  xs.findIdx? (fun x => x == c)

/-- `OverlappingModel::color_to_index` (a palette miss panics in the source;
we return the out-of-range index `palette.length` instead). -/
def OverlappingModel.color_to_index (m : OverlappingModel) (color : RGB) : ℕ :=
  (binary_search m.palette color).getD m.palette.length

/-- `OverlappingModel::valid_states_at_position`.  The labelled
`continue 'state` in the source skips the *push* on either a failed bounds
check or a failed color check, so a state index is collected iff every pixel
of the pattern is in bounds and its color is still possible. -/
def OverlappingModel.valid_states_at_position (m : OverlappingModel) (p : ℕ × ℕ) : List ℕ :=
  (List.range m.states.length).filter (fun state_index =>
    ((m.states.getD state_index default).1.indexedIter).all (fun pc =>
      m.valid_coordinate (p.1 + pc.1.1, p.2 + pc.1.2) &&
        (m.model.get2 (p.1 + pc.1.1, p.2 + pc.1.2)).valid_color (m.color_to_index pc.2)))

/-- The eligibility predicate the spec describes (§4.4/§8, the claim's
reading): a pixel whose offset falls *outside* grid bounds is treated as
automatically satisfied instead of rejecting the pattern. -/
def OverlappingModel.valid_states_at_position_spec (m : OverlappingModel) (p : ℕ × ℕ) : List ℕ :=
  (List.range m.states.length).filter (fun state_index =>
    ((m.states.getD state_index default).1.indexedIter).all (fun pc =>
      !(m.valid_coordinate (p.1 + pc.1.1, p.2 + pc.1.2)) ||
        (m.model.get2 (p.1 + pc.1.1, p.2 + pc.1.2)).valid_color (m.color_to_index pc.2)))

/-- The N×N block of the image whose top-left corner is `(i, j)`. -/
def extract_block (img : Array2 RGB) (n i j : ℕ) : Array2 RGB :=
  ⟨n, n, (List.range n).flatMap (fun di => (List.range n).map (fun dj => img.get2 (i + di, j + dj)))⟩

/-- `ndarray`'s `windows((n, n))`: every N×N view at stride 1, no wraparound,
row-major order of the top-left corners. -/
def windowsList (img : Array2 RGB) (n : ℕ) : List (Array2 RGB) :=
  (List.range (img.rows + 1 - n)).flatMap (fun i =>
    (List.range (img.cols + 1 - n)).map (fun j => extract_block img n i j))

/-- One `HashMap::entry(block).or_insert(0) += 1` step, on an association
list keyed by exact block content. -/
def bumpBlock : List (Array2 RGB × ℕ) → Array2 RGB → List (Array2 RGB × ℕ)
  | [], b => [(b, 1)]
  | (k, c) :: rest, b =>
    if k = b then (k, c + 1) :: rest else (k, c) :: bumpBlock rest b

/-- `OverlappingModel::build_block_frequency_map`: count every N×N window of
the seed image by exact content (the hash map's arbitrary iteration order
becomes first-occurrence order here; no property below depends on order). -/
def build_block_frequency_map (image_data : Array2 RGB) (block_size : ℕ) :
    List (Array2 RGB × ℕ) :=
  (windowsList image_data block_size).foldl bumpBlock []

/-- The catalog frequency recorded for a block (`0` when absent). -/
def catalogFreq (catalog : List (Array2 RGB × ℕ)) (b : Array2 RGB) : ℕ :=
  ((catalog.filter (fun p => p.1 = b)).map Prod.snd).sum

/-- The error/result taxonomy of the scan (`ModelError`). -/
inductive ModelError where
  | NoValidStates : ℕ × ℕ → ModelError
  | UnexpectedNaN : ℕ × ℕ → ModelError
  | AllStatesDecided : ModelError
deriving DecidableEq

/-- The `f64` values flowing through the minimum-entropy scan: a finite
double (an exact rational) or NaN.  All comparisons with NaN are false,
matching IEEE. -/
inductive F64 where
  | nan : F64
  | val : ℚ → F64
deriving DecidableEq

def F64.gt : F64 → F64 → Bool
  | F64.val a, F64.val b => decide (b < a)
  | _, _ => false

def F64.le : F64 → F64 → Bool
  | F64.val a, F64.val b => decide (a ≤ b)
  | _, _ => false

def F64.isNan : F64 → Bool
  | F64.nan => true
  | F64.val _ => false

/-- `f64::MAX` as an exact rational: `(2 - 2^-52) * 2^1023`. -/
def f64MAX : ℚ := (2 ^ 53 - 1) * 2 ^ 971

/-- The loop body of `find_lowest_nonzero_entropy_coordinates`, transcribed
from the source: abort on a `None` entropy; for `Some(u)` with `u > 0.`
record `u` when `u <= entropy`, otherwise flag NaN, otherwise skip; skip all
other cells.  The accumulator is `(output, entropy)`. -/
def find_aux : List ((ℕ × ℕ) × Option F64) → Option (ℕ × ℕ) → F64 →
    Except ModelError (Option (ℕ × ℕ) × F64)
  | [], output, entropy => Except.ok (output, entropy)
  | (index, none) :: _, _, _ => Except.error (ModelError.NoValidStates index)
  | (index, some u) :: rest, output, entropy =>
    if u.gt (F64.val 0) then
      if u.le entropy then find_aux rest (some index) u
      else if u.isNan then Except.error (ModelError.UnexpectedNaN index)
      else find_aux rest output entropy
    else find_aux rest output entropy

/-- `OverlappingModel::find_lowest_nonzero_entropy_coordinates`, as a function
of the row-major list of `(coordinate, entropy)` pairs the scan consumes
(`self.model.indexed_iter()` paired with each cell's computed entropy). -/
def find_lowest_nonzero_entropy_coordinates
    (cells : List ((ℕ × ℕ) × Option F64)) : Except ModelError (ℕ × ℕ) :=
  match find_aux cells none (F64.val f64MAX) with
  | Except.error e => Except.error e
  | Except.ok (none, _) => Except.error ModelError.AllStatesDecided
  | Except.ok (some u, _) => Except.ok u

theorem EF.nan_add (t : EF) : EF.add EF.nan t = EF.nan := by cases t <;> rfl

theorem EF.add_val_zero_nan : EF.add (EF.val 0) EF.nan = EF.nan := rfl

theorem foldl_add_from_nan (l : List EF) : l.foldl EF.add EF.nan = EF.nan := by
  induction l with
  | nil => rfl
  | cons t rest ih => rw [List.foldl_cons, EF.nan_add, ih]

theorem foldl_add_all_nan_eq (l : List EF) (hne : l ≠ []) (h : ∀ t ∈ l, t = EF.nan) :
    l.foldl EF.add (EF.val 0) = EF.nan := by
  cases l with
  | nil => exact absurd rfl hne
  | cons t rest =>
    rw [List.foldl_cons, h t (by simp), EF.add_val_zero_nan]
    exact foldl_add_from_nan rest

/-- Each summand of the source's entropy sum is NaN: with `x = c / total` in
`[0, 1]`, the inner `x * ln x` is non-positive (or itself NaN), so the outer
`ln` is NaN. -/
theorem entropy_term_nan (c total : ℕ) (h : c ≤ total) :
    EF.mul
      (EF.mul (EF.div (EF.val (c : ℝ)) (EF.val (total : ℝ)))
        (EF.ln (EF.div (EF.val (c : ℝ)) (EF.val (total : ℝ)))))
      (EF.ln (EF.mul (EF.div (EF.val (c : ℝ)) (EF.val (total : ℝ)))
        (EF.ln (EF.div (EF.val (c : ℝ)) (EF.val (total : ℝ)))))) = EF.nan := by
  rcases Nat.eq_zero_or_pos total with h0 | h0
  · subst h0
    simp [EF.div, EF.mul, EF.ln]
  · have htR : (0 : ℝ) < (total : ℝ) := by exact_mod_cast h0
    have hdiv : EF.div (EF.val (c : ℝ)) (EF.val (total : ℝ)) = EF.val ((c : ℝ) / (total : ℝ)) := by
      simp [EF.div, ne_of_gt htR]
    rcases Nat.eq_zero_or_pos c with hc | hc
    · subst hc
      rw [hdiv]
      simp [EF.ln, EF.mul]
    · have hx0 : (0 : ℝ) < (c : ℝ) / (total : ℝ) := by
        apply div_pos _ htR
        exact_mod_cast hc
      have hx1 : (c : ℝ) / (total : ℝ) ≤ 1 := by
        rw [div_le_one htR]
        exact_mod_cast h
      have hlog : Real.log ((c : ℝ) / (total : ℝ)) ≤ 0 := Real.log_nonpos (le_of_lt hx0) hx1
      have hy : ¬ (0 : ℝ) < ((c : ℝ) / (total : ℝ)) * Real.log ((c : ℝ) / (total : ℝ)) := by
        push_neg
        exact mul_nonpos_of_nonneg_of_nonpos (le_of_lt hx0) hlog
      rw [hdiv]
      simp [EF.ln, EF.mul, hx0, hy]

theorem remaining_counts_length {α : Type} (ws : List α) (ps : List Bool)
    (h : ws.length = ps.length) :
    (((ws.zip ps).filter (fun wp => wp.2)).map Prod.fst).length
      = (ps.filter (fun b => b)).length := by
  induction ps generalizing ws with
  | nil =>
    cases ws with
    | nil => rfl
    | cons w ws => simp at h
  | cons b bs ih =>
    cases ws with
    | nil => simp at h
    | cons w ws =>
      have h' : ws.length = bs.length := by simpa using h
      cases b <;> simp [List.filter_cons, ih ws h']

/-- With two or more possible states, the source's entropy is `Some NaN`,
whatever the catalog weights are. -/
theorem entropy_multi_nan {α : Type} (pc ps : List Bool) (cs : List (α × ℕ))
    (hlen : ps.length = cs.length) (h2 : 2 ≤ (ps.filter (fun b => b)).length) :
    UncertainCell.entropy ⟨pc, ps⟩ cs = some EF.nan := by
  have hall : ¬ (ps.all (fun p => !p) = true) := by
    intro hcon
    rw [List.all_eq_true] at hcon
    have hnil : ps.filter (fun b => b) = [] := by
      apply List.filter_eq_nil_iff.mpr
      intro b hb
      have hb' := hcon b hb
      simp at hb'
      simp [hb']
    rw [hnil] at h2
    simp at h2
  have hone : ¬ ((ps.filter (fun p => p)).length = 1) := by omega
  simp only [UncertainCell.entropy]
  rw [if_neg hall, if_neg hone]
  have hclen :
      ((((cs.map Prod.snd).zip ps).filter (fun wp => wp.2)).map Prod.fst).length
        = (ps.filter (fun b => b)).length := by
    apply remaining_counts_length
    simp [hlen]
  have hclen2 : 2 ≤ ((((cs.map Prod.snd).zip ps).filter (fun wp => wp.2)).map Prod.fst).length := by
    omega
  have hterms : ∀ t ∈ (((((cs.map Prod.snd).zip ps).filter (fun wp => wp.2)).map Prod.fst).map
      (fun count : ℕ =>
        EF.mul
          (EF.div (EF.val (count : ℝ))
            (EF.val ((((((cs.map Prod.snd).zip ps).filter (fun wp => wp.2)).map Prod.fst).sum : ℕ) : ℝ)))
          (EF.ln
            (EF.div (EF.val (count : ℝ))
              (EF.val ((((((cs.map Prod.snd).zip ps).filter (fun wp => wp.2)).map Prod.fst).sum : ℕ) : ℝ)))))).map
      (fun x => EF.mul x (EF.ln x)), t = EF.nan := by
    intro t ht
    rw [List.mem_map] at ht
    obtain ⟨y, hy, rfl⟩ := ht
    rw [List.mem_map] at hy
    obtain ⟨c, hcmem, rfl⟩ := hy
    apply entropy_term_nan c ((((cs.map Prod.snd).zip ps).filter (fun wp => wp.2)).map Prod.fst).sum
      (List.single_le_sum (fun x _ => Nat.zero_le x) c hcmem)
  rw [foldl_add_all_nan_eq _ (by
    apply List.ne_nil_of_length_pos
    rw [List.length_map, List.length_map]
    omega) hterms]
  rfl

/-- C1 (code bug): the claim (and the spec's stated contract) says `entropy`
computes standard Shannon entropy and returns `ln 2` for a cell with two
equal-weight possible states.  The source applies the `x * ln x` step twice,
so every summand takes `ln` of a negative number and the result is NaN —
while the spec's Shannon formula does give `ln 2` on that input. -/
theorem C1_entropy_nan_not_shannon :
    UncertainCell.entropy ⟨[], [true, true]⟩ [((0 : ℕ), 1), ((0 : ℕ), 1)] = some EF.nan ∧
    shannon_entropy [1, 1] [true, true] = Real.log 2 := by
  refine ⟨entropy_multi_nan [] [true, true] [((0 : ℕ), 1), ((0 : ℕ), 1)] rfl (by decide), ?_⟩
  have hrem : remainingWeights [1, 1] [true, true] = [1, 1] := rfl
  have hlog : Real.log ((1 : ℝ) / 2) = -Real.log 2 := by
    rw [one_div, Real.log_inv]
  rw [shannon_entropy, hrem]
  have hsum : ([1, 1] : List ℕ).sum = 2 := rfl
  simp only [hsum, List.map_cons, List.map_nil, List.sum_cons, List.sum_nil,
    Nat.cast_ofNat, Nat.cast_one]
  rw [hlog]
  ring

/-- C2 (code bug): the claim says entropy is finite, non-negative and never
NaN for positive integer weights and at least two possible states; in fact
under exactly those hypotheses the source's entropy is `Some NaN`. -/
theorem C2_entropy_nan_under_claim_hypotheses {α : Type} (pc ps : List Bool)
    (cs : List (α × ℕ)) (hlen : ps.length = cs.length)
    (_hpos : ∀ p ∈ cs, 0 < p.2) (h2 : 2 ≤ (ps.filter (fun b => b)).length) :
    UncertainCell.entropy ⟨pc, ps⟩ cs = some EF.nan :=
  entropy_multi_nan pc ps cs hlen h2

theorem C2_witness :
    UncertainCell.entropy ⟨[], [true, true]⟩ [((0 : ℕ), 2), ((0 : ℕ), 3)] = some EF.nan :=
  C2_entropy_nan_under_claim_hypotheses [] [true, true] [((0 : ℕ), 2), ((0 : ℕ), 3)]
    rfl (by decide) (by decide)

/-- C7: `entropy` returns no value iff the possible-states bitset is entirely
clear, and returns exactly `0` iff exactly one state bit is set. -/
theorem C7_entropy_none_and_zero_iff {α : Type} (pc ps : List Bool) (cs : List (α × ℕ))
    (hlen : ps.length = cs.length) :
    (UncertainCell.entropy ⟨pc, ps⟩ cs = none ↔ ∀ b ∈ ps, b = false) ∧
    (UncertainCell.entropy ⟨pc, ps⟩ cs = some (EF.val 0) ↔
      (ps.filter (fun b => b)).length = 1) := by
  by_cases hall : ps.all (fun p => !p) = true
  · have hnone : UncertainCell.entropy ⟨pc, ps⟩ cs = none := by
      simp only [UncertainCell.entropy]
      rw [if_pos hall]
    have hfalse : ∀ b ∈ ps, b = false := by
      rw [List.all_eq_true] at hall
      intro b hb
      have hb' := hall b hb
      simpa using hb'
    have hnil : ps.filter (fun b => b) = [] :=
      List.filter_eq_nil_iff.mpr (fun b hb => by simp [hfalse b hb])
    constructor
    · exact ⟨fun _ => hfalse, fun _ => hnone⟩
    · constructor
      · intro habs
        rw [hnone] at habs
        exact Option.noConfusion habs
      · intro h1
        rw [hnil] at h1
        simp at h1
  · have hnotall : ¬ ∀ b ∈ ps, b = false := by
      intro habs
      exact hall (List.all_eq_true.mpr (fun b hb => by simp [habs b hb]))
    have hfpos : 0 < (ps.filter (fun b => b)).length := by
      rcases Nat.eq_zero_or_pos (ps.filter (fun b => b)).length with h0 | h0
      · exfalso
        apply hnotall
        intro b hb
        have hnil := List.length_eq_zero.mp h0
        by_contra hbt
        have hbt' : b = true := by
          cases b
          · exact absurd rfl hbt
          · rfl
        have : b ∈ ps.filter (fun b => b) := List.mem_filter.mpr ⟨hb, by simp [hbt']⟩
        rw [hnil] at this
        simp at this
      · exact h0
    by_cases hone : (ps.filter (fun p => p)).length = 1
    · have hzero : UncertainCell.entropy ⟨pc, ps⟩ cs = some (EF.val 0) := by
        simp only [UncertainCell.entropy]
        rw [if_neg hall, if_pos hone]
      constructor
      · constructor
        · intro habs
          rw [hzero] at habs
          exact Option.noConfusion habs
        · intro habs
          exact absurd habs hnotall
      · exact ⟨fun _ => hone, fun _ => hzero⟩
    · have h2 : 2 ≤ (ps.filter (fun b => b)).length := by omega
      have hnan := entropy_multi_nan pc ps cs hlen h2
      constructor
      · constructor
        · intro habs
          rw [hnan] at habs
          exact Option.noConfusion habs
        · intro habs
          exact absurd habs hnotall
      · constructor
        · intro habs
          rw [hnan] at habs
          have := Option.some.inj habs
          exact EF.noConfusion this
        · intro h1
          exact absurd h1 hone

theorem C7_witness :
    (UncertainCell.entropy ⟨[], [true, false]⟩ [((0 : ℕ), 1), ((0 : ℕ), 1)] = none ↔
      ∀ b ∈ [true, false], b = false) ∧
    (UncertainCell.entropy ⟨[], [true, false]⟩ [((0 : ℕ), 1), ((0 : ℕ), 1)] = some (EF.val 0) ↔
      ([true, false].filter (fun b => b)).length = 1) :=
  C7_entropy_none_and_zero_iff [] [true, false] [((0 : ℕ), 1), ((0 : ℕ), 1)] rfl

/-- A concrete model: fully unconstrained 2×2 grid, one-color palette, a
single 2×2 all-zero pattern of frequency 4 in the catalog. -/
def exampleModel : OverlappingModel :=
  { model := ⟨2, 2, [⟨[true], [true]⟩, ⟨[true], [true]⟩, ⟨[true], [true]⟩, ⟨[true], [true]⟩]⟩
    palette := [0]
    states := [(⟨2, 2, [0, 0, 0, 0]⟩, 4)]
    state_size := 2 }

/-- C3 (counterexample): at position `(1, 1)` of the fully unconstrained 2×2
grid, the single 2×2 pattern has three pixels hanging off the grid edge and
its only in-bounds pixel check passes.  The claim's reading (out-of-bounds
pixels automatically satisfied) accepts the pattern, but the source rejects
it: the labelled `continue 'state` skips the push for the whole pattern. -/
theorem C3_counterexample :
    OverlappingModel.valid_states_at_position exampleModel (1, 1) = [] ∧
    OverlappingModel.valid_states_at_position_spec exampleModel (1, 1) = [0] := by
  constructor
  · rfl
  · rfl

/-- C3 (amended): a pattern pixel whose offset falls outside grid bounds
causes the *whole pattern* to be rejected at that position, so a pattern is
reported eligible iff every one of its pixels is in bounds and its color is
still possible in the corresponding cell's color bitset. -/
theorem C3_amended_eligibility (m : OverlappingModel) (p : ℕ × ℕ) (i : ℕ)
    (hi : i < m.states.length) :
    i ∈ m.valid_states_at_position p ↔
      ∀ pc ∈ (m.states.getD i default).1.indexedIter,
        m.valid_coordinate (p.1 + pc.1.1, p.2 + pc.1.2) = true ∧
        (m.model.get2 (p.1 + pc.1.1, p.2 + pc.1.2)).valid_color
          (m.color_to_index pc.2) = true := by
  unfold OverlappingModel.valid_states_at_position
  rw [List.mem_filter, List.mem_range]
  simp [hi, List.all_eq_true, Bool.and_eq_true]

theorem C3_amended_witness :
    (0 ∈ OverlappingModel.valid_states_at_position exampleModel (0, 0)) ↔
      ∀ pc ∈ (exampleModel.states.getD 0 default).1.indexedIter,
        exampleModel.valid_coordinate (0 + pc.1.1, 0 + pc.1.2) = true ∧
        (exampleModel.model.get2 (0 + pc.1.1, 0 + pc.1.2)).valid_color
          (exampleModel.color_to_index pc.2) = true :=
  C3_amended_eligibility exampleModel (0, 0) 0 (by decide)

theorem find_aux_cons_none (c : ℕ × ℕ) (rest : List ((ℕ × ℕ) × Option F64))
    (out : Option (ℕ × ℕ)) (ent : F64) :
    find_aux ((c, none) :: rest) out ent = Except.error (ModelError.NoValidStates c) := rfl

/-- A NaN entropy fails the `u > 0.` guard and is skipped. -/
theorem find_aux_cons_nan (c : ℕ × ℕ) (rest : List ((ℕ × ℕ) × Option F64))
    (out : Option (ℕ × ℕ)) (ent : F64) :
    find_aux ((c, some F64.nan) :: rest) out ent = find_aux rest out ent := rfl

/-- Branch normal form of one loop step on a finite value against a finite
accumulator (the NaN test inside is dead: `isNan` of a finite value is
false). -/
theorem find_aux_cons_val (c : ℕ × ℕ) (rest : List ((ℕ × ℕ) × Option F64))
    (out : Option (ℕ × ℕ)) (ent q : ℚ) :
    find_aux ((c, some (F64.val q)) :: rest) out (F64.val ent) =
      if 0 < q then
        (if q ≤ ent then find_aux rest (some c) (F64.val q)
         else find_aux rest out (F64.val ent))
      else find_aux rest out (F64.val ent) := by
  by_cases h1 : 0 < q
  · by_cases h2 : q ≤ ent
    · simp only [find_aux, F64.gt, F64.le, F64.isNan, decide_eq_true_eq, if_pos h1, if_pos h2]
    · simp only [find_aux, F64.gt, F64.le, F64.isNan, decide_eq_true_eq, if_pos h1, if_neg h2,
        Bool.false_eq_true, if_false]
  · simp only [find_aux, F64.gt, F64.le, F64.isNan, decide_eq_true_eq, if_neg h1]

theorem find_aux_no_nan_error (cells : List ((ℕ × ℕ) × Option F64)) :
    ∀ (out : Option (ℕ × ℕ)) (ent : ℚ) (i : ℕ × ℕ),
      find_aux cells out (F64.val ent) ≠ Except.error (ModelError.UnexpectedNaN i) := by
  induction cells with
  | nil =>
    intro out ent i h
    exact Except.noConfusion h
  | cons hd rest ih =>
    intro out ent i h
    obtain ⟨c, e⟩ := hd
    cases e with
    | none =>
      rw [find_aux_cons_none] at h
      exact ModelError.noConfusion (Except.error.inj h)
    | some u =>
      cases u with
      | nan =>
        rw [find_aux_cons_nan] at h
        exact ih out ent i h
      | val q =>
        rw [find_aux_cons_val] at h
        by_cases h1 : 0 < q
        · by_cases h2 : q ≤ ent
          · rw [if_pos h1, if_pos h2] at h
            exact ih (some c) q i h
          · rw [if_pos h1, if_neg h2] at h
            exact ih out ent i h
        · rw [if_neg h1] at h
          exact ih out ent i h

/-- If no cell records (none is positive and at most the accumulator) and no
cell is contradictory, the loop leaves the accumulator untouched. -/
theorem find_aux_no_record (cells : List ((ℕ × ℕ) × Option F64)) :
    ∀ (out : Option (ℕ × ℕ)) (ent : ℚ),
      (∀ p ∈ cells, p.2 ≠ none) →
      (∀ p ∈ cells, ∀ q : ℚ, p.2 = some (F64.val q) → ¬ (0 < q ∧ q ≤ ent)) →
      find_aux cells out (F64.val ent) = Except.ok (out, F64.val ent) := by
  induction cells with
  | nil => intro out ent h1 h2; rfl
  | cons hd rest ih =>
    intro out ent h1 h2
    obtain ⟨c, e⟩ := hd
    cases e with
    | none => exact absurd rfl (h1 (c, none) (List.mem_cons_self _ _))
    | some u =>
      cases u with
      | nan =>
        rw [find_aux_cons_nan]
        exact ih out ent (fun p hp => h1 p (List.mem_cons_of_mem _ hp))
          (fun p hp => h2 p (List.mem_cons_of_mem _ hp))
      | val q =>
        have hq := h2 (c, some (F64.val q)) (List.mem_cons_self _ _) q rfl
        rw [find_aux_cons_val]
        by_cases hq1 : 0 < q
        · have hq2 : ¬ q ≤ ent := fun hle => hq ⟨hq1, hle⟩
          rw [if_pos hq1, if_neg hq2]
          exact ih out ent (fun p hp => h1 p (List.mem_cons_of_mem _ hp))
            (fun p hp => h2 p (List.mem_cons_of_mem _ hp))
        · rw [if_neg hq1]
          exact ih out ent (fun p hp => h1 p (List.mem_cons_of_mem _ hp))
            (fun p hp => h2 p (List.mem_cons_of_mem _ hp))

/-- Skipping a contradiction-free prefix only changes the accumulator. -/
theorem find_aux_append_no_none (pre : List ((ℕ × ℕ) × Option F64)) :
    ∀ (rest : List ((ℕ × ℕ) × Option F64)) (out : Option (ℕ × ℕ)) (ent : ℚ),
      (∀ p ∈ pre, p.2 ≠ none) →
      ∃ out2 ent2, find_aux (pre ++ rest) out (F64.val ent) = find_aux rest out2 (F64.val ent2) := by
  induction pre with
  | nil => intro rest out ent hp; exact ⟨out, ent, rfl⟩
  | cons hd tl ih =>
    intro rest out ent hp
    obtain ⟨c, e⟩ := hd
    cases e with
    | none => exact absurd rfl (hp (c, none) (List.mem_cons_self _ _))
    | some u =>
      cases u with
      | nan =>
        rw [List.cons_append, find_aux_cons_nan]
        exact ih rest out ent (fun p hp2 => hp p (List.mem_cons_of_mem _ hp2))
      | val q =>
        rw [List.cons_append, find_aux_cons_val]
        by_cases h1 : 0 < q
        · by_cases h2 : q ≤ ent
          · rw [if_pos h1, if_pos h2]
            exact ih rest (some c) q (fun p hp2 => hp p (List.mem_cons_of_mem _ hp2))
          · rw [if_pos h1, if_neg h2]
            exact ih rest out ent (fun p hp2 => hp p (List.mem_cons_of_mem _ hp2))
        · rw [if_neg h1]
          exact ih rest out ent (fun p hp2 => hp p (List.mem_cons_of_mem _ hp2))

/-- Full characterization of the recording loop on contradiction-free,
NaN-free input whose positive values are not all above the accumulator: the
loop returns the coordinate of the *last* list position attaining the minimum
positive value. -/
theorem find_aux_min_spec (cells : List ((ℕ × ℕ) × Option F64)) :
    ∀ (out : Option (ℕ × ℕ)) (ent : ℚ),
      (∀ p ∈ cells, ∃ q : ℚ, p.2 = some (F64.val q)) →
      (∃ p ∈ cells, ∃ q : ℚ, p.2 = some (F64.val q) ∧ 0 < q ∧ q ≤ ent) →
      ∃ k, ∃ p : (ℕ × ℕ) × Option F64, cells[k]? = some p ∧ ∃ q : ℚ,
        p.2 = some (F64.val q) ∧ 0 < q ∧ q ≤ ent ∧
        find_aux cells out (F64.val ent) = Except.ok (some p.1, F64.val q) ∧
        (∀ r ∈ cells, ∀ w : ℚ, r.2 = some (F64.val w) → 0 < w → q ≤ w) ∧
        (∀ (j : ℕ) (r : (ℕ × ℕ) × Option F64), k < j → cells[j]? = some r → ∀ w : ℚ,
          r.2 = some (F64.val w) → 0 < w → q < w) := by
  induction cells with
  | nil =>
    intro out ent hval hex
    simp at hex
  | cons hd rest ih =>
    intro out ent hval hex
    obtain ⟨c, e⟩ := hd
    obtain ⟨q0, hq0⟩ := hval (c, e) (List.mem_cons_self _ _)
    have he : e = some (F64.val q0) := hq0
    subst he
    by_cases h1 : 0 < q0
    · by_cases h2 : q0 ≤ ent
      · have hstep : find_aux ((c, some (F64.val q0)) :: rest) out (F64.val ent)
            = find_aux rest (some c) (F64.val q0) := by
          rw [find_aux_cons_val, if_pos h1, if_pos h2]
        by_cases hrest : ∃ p ∈ rest, ∃ w : ℚ, p.2 = some (F64.val w) ∧ 0 < w ∧ w ≤ q0
        · obtain ⟨k, p, hget, q, hcell, hqpos, hqle, heq, hmin, hlast⟩ :=
            ih (some c) q0 (fun p hp => hval p (List.mem_cons_of_mem _ hp)) hrest
          refine ⟨k + 1, p, ?_, q, hcell, hqpos, le_trans hqle h2, ?_, ?_, ?_⟩
          · rw [List.getElem?_cons_succ]
            exact hget
          · rw [hstep]
            exact heq
          · intro r hr w hw hwpos
            rcases List.mem_cons.mp hr with hr0 | hr1
            · rw [hr0] at hw
              have hqw : q0 = w := F64.val.inj (Option.some.inj hw)
              subst hqw
              exact hqle
            · exact hmin r hr1 w hw hwpos
          · intro j r hj hget2 w hw hwpos
            cases j with
            | zero => omega
            | succ j2 =>
              rw [List.getElem?_cons_succ] at hget2
              exact hlast j2 r (by omega) hget2 w hw hwpos
        · push_neg at hrest
          have hnr : find_aux rest (some c) (F64.val q0) = Except.ok (some c, F64.val q0) := by
            apply find_aux_no_record
            · intro p hp
              obtain ⟨w, hw⟩ := hval p (List.mem_cons_of_mem _ hp)
              simp [hw]
            · intro p hp w hw hand
              exact absurd hand.2 (not_le.mpr (hrest p hp w hw hand.1))
          refine ⟨0, (c, some (F64.val q0)), List.getElem?_cons_zero, q0, rfl, h1, h2, ?_, ?_, ?_⟩
          · rw [hstep]
            exact hnr
          · intro r hr w hw hwpos
            rcases List.mem_cons.mp hr with hr0 | hr1
            · rw [hr0] at hw
              have hqw : q0 = w := F64.val.inj (Option.some.inj hw)
              subst hqw
              exact le_refl q0
            · exact le_of_lt (hrest r hr1 w hw hwpos)
          · intro j r hj hget2 w hw hwpos
            cases j with
            | zero => omega
            | succ j2 =>
              rw [List.getElem?_cons_succ] at hget2
              exact hrest r (List.getElem?_mem hget2) w hw hwpos
      · have hstep : find_aux ((c, some (F64.val q0)) :: rest) out (F64.val ent)
            = find_aux rest out (F64.val ent) := by
          rw [find_aux_cons_val, if_pos h1, if_neg h2]
        have hex2 : ∃ p ∈ rest, ∃ w : ℚ, p.2 = some (F64.val w) ∧ 0 < w ∧ w ≤ ent := by
          obtain ⟨p, hp, w, hw, hwpos, hwle⟩ := hex
          rcases List.mem_cons.mp hp with hp0 | hp1
          · rw [hp0] at hw
            have hqw : q0 = w := F64.val.inj (Option.some.inj hw)
            subst hqw
            exact absurd hwle h2
          · exact ⟨p, hp1, w, hw, hwpos, hwle⟩
        obtain ⟨k, p, hget, q, hcell, hqpos, hqle, heq, hmin, hlast⟩ :=
          ih out ent (fun p hp => hval p (List.mem_cons_of_mem _ hp)) hex2
        refine ⟨k + 1, p, ?_, q, hcell, hqpos, hqle, ?_, ?_, ?_⟩
        · rw [List.getElem?_cons_succ]
          exact hget
        · rw [hstep]
          exact heq
        · intro r hr w hw hwpos
          rcases List.mem_cons.mp hr with hr0 | hr1
          · rw [hr0] at hw
            have hqw : q0 = w := F64.val.inj (Option.some.inj hw)
            subst hqw
            exact le_of_lt (lt_of_le_of_lt hqle (not_le.mp h2))
          · exact hmin r hr1 w hw hwpos
        · intro j r hj hget2 w hw hwpos
          cases j with
          | zero => omega
          | succ j2 =>
            rw [List.getElem?_cons_succ] at hget2
            exact hlast j2 r (by omega) hget2 w hw hwpos
    · have hstep : find_aux ((c, some (F64.val q0)) :: rest) out (F64.val ent)
          = find_aux rest out (F64.val ent) := by
        rw [find_aux_cons_val, if_neg h1]
      have hex2 : ∃ p ∈ rest, ∃ w : ℚ, p.2 = some (F64.val w) ∧ 0 < w ∧ w ≤ ent := by
        obtain ⟨p, hp, w, hw, hwpos, hwle⟩ := hex
        rcases List.mem_cons.mp hp with hp0 | hp1
        · rw [hp0] at hw
          have hqw : q0 = w := F64.val.inj (Option.some.inj hw)
          subst hqw
          exact absurd hwpos h1
        · exact ⟨p, hp1, w, hw, hwpos, hwle⟩
      obtain ⟨k, p, hget, q, hcell, hqpos, hqle, heq, hmin, hlast⟩ :=
        ih out ent (fun p hp => hval p (List.mem_cons_of_mem _ hp)) hex2
      refine ⟨k + 1, p, ?_, q, hcell, hqpos, hqle, ?_, ?_, ?_⟩
      · rw [List.getElem?_cons_succ]
        exact hget
      · rw [hstep]
        exact heq
      · intro r hr w hw hwpos
        rcases List.mem_cons.mp hr with hr0 | hr1
        · rw [hr0] at hw
          have hqw : q0 = w := F64.val.inj (Option.some.inj hw)
          subst hqw
          exact absurd hwpos h1
        · exact hmin r hr1 w hw hwpos
      · intro j r hj hget2 w hw hwpos
        cases j with
        | zero => omega
        | succ j2 =>
          rw [List.getElem?_cons_succ] at hget2
          exact hlast j2 r (by omega) hget2 w hw hwpos

/-- C4: among the cells with entropy strictly greater than zero, the scan
returns the coordinate with the minimum entropy, and on ties the coordinate
encountered latest in row-major scan order.  Stated over the row-major list
of per-cell entropy values the scan consumes; the hypotheses say every cell
has a finite (non-NaN, at most `f64::MAX`) entropy value and at least one is
strictly positive. -/
theorem C4_scan_min_last_tie (cells : List ((ℕ × ℕ) × Option F64))
    (hval : ∀ p ∈ cells, ∃ q : ℚ, p.2 = some (F64.val q) ∧ q ≤ f64MAX)
    (hpos : ∃ p ∈ cells, ∃ q : ℚ, p.2 = some (F64.val q) ∧ 0 < q) :
    ∃ k, ∃ p : (ℕ × ℕ) × Option F64, cells[k]? = some p ∧ ∃ q : ℚ,
      p.2 = some (F64.val q) ∧ 0 < q ∧
      find_lowest_nonzero_entropy_coordinates cells = Except.ok p.1 ∧
      (∀ r ∈ cells, ∀ w : ℚ, r.2 = some (F64.val w) → 0 < w → q ≤ w) ∧
      (∀ (j : ℕ) (r : (ℕ × ℕ) × Option F64), k < j → cells[j]? = some r → ∀ w : ℚ,
        r.2 = some (F64.val w) → 0 < w → q < w) := by
  have hex : ∃ p ∈ cells, ∃ q : ℚ, p.2 = some (F64.val q) ∧ 0 < q ∧ q ≤ f64MAX := by
    obtain ⟨p, hp, q, hq, hqpos⟩ := hpos
    obtain ⟨q2, hq2, hle⟩ := hval p hp
    have h12 : q = q2 := F64.val.inj (Option.some.inj (hq.symm.trans hq2))
    subst h12
    exact ⟨p, hp, q, hq, hqpos, hle⟩
  obtain ⟨k, p, hget, q, hcell, hqpos, hqle, heq, hmin, hlast⟩ :=
    find_aux_min_spec cells none f64MAX
      (fun p hp => (hval p hp).imp (fun q hq => hq.1)) hex
  refine ⟨k, p, hget, q, hcell, hqpos, ?_, hmin, hlast⟩
  unfold find_lowest_nonzero_entropy_coordinates
  rw [heq]

theorem C4_witness :
    ∃ k, ∃ p : (ℕ × ℕ) × Option F64,
      [((0, 0), some (F64.val 2)), ((0, 1), some (F64.val 1)),
        ((1, 0), some (F64.val 1))][k]? = some p ∧ ∃ q : ℚ,
      p.2 = some (F64.val q) ∧ 0 < q ∧
      find_lowest_nonzero_entropy_coordinates
          [((0, 0), some (F64.val 2)), ((0, 1), some (F64.val 1)),
            ((1, 0), some (F64.val 1))] = Except.ok p.1 ∧
      (∀ r ∈ [((0, 0), some (F64.val 2)), ((0, 1), some (F64.val 1)),
          ((1, 0), some (F64.val 1))],
        ∀ w : ℚ, r.2 = some (F64.val w) → 0 < w → q ≤ w) ∧
      (∀ (j : ℕ) (r : (ℕ × ℕ) × Option F64), k < j →
        [((0, 0), some (F64.val 2)), ((0, 1), some (F64.val 1)),
          ((1, 0), some (F64.val 1))][j]? = some r → ∀ w : ℚ,
        r.2 = some (F64.val w) → 0 < w → q < w) := by
  apply C4_scan_min_last_tie
  · intro p hp
    rcases List.mem_cons.mp hp with h | hp2
    · exact ⟨2, by rw [h], by norm_num [f64MAX]⟩
    rcases List.mem_cons.mp hp2 with h | hp3
    · exact ⟨1, by rw [h], by norm_num [f64MAX]⟩
    rcases List.mem_cons.mp hp3 with h | hp4
    · exact ⟨1, by rw [h], by norm_num [f64MAX]⟩
    · simp at hp4
  · exact ⟨((0, 1), some (F64.val 1)), by simp, 1, rfl, one_pos⟩

/-- C5: a contradiction (`None` entropy) aborts the scan at the first such
cell in row-major order, whatever lies after it; and with no contradiction
and no strictly positive entropy anywhere, the scan reports the
`AllStatesDecided` completion signal. -/
theorem C5_first_contradiction_or_all_decided :
    (∀ (pre post : List ((ℕ × ℕ) × Option F64)) (c : ℕ × ℕ),
      (∀ p ∈ pre, p.2 ≠ none) →
      find_lowest_nonzero_entropy_coordinates (pre ++ (c, none) :: post) =
        Except.error (ModelError.NoValidStates c)) ∧
    (∀ cells : List ((ℕ × ℕ) × Option F64),
      (∀ p ∈ cells, p.2 ≠ none) →
      (∀ p ∈ cells, ∀ q : ℚ, p.2 = some (F64.val q) → ¬ 0 < q) →
      find_lowest_nonzero_entropy_coordinates cells = Except.error ModelError.AllStatesDecided) := by
  constructor
  · intro pre post c hpre
    obtain ⟨out2, ent2, heq⟩ := find_aux_append_no_none pre ((c, none) :: post) none f64MAX hpre
    unfold find_lowest_nonzero_entropy_coordinates
    rw [heq, find_aux_cons_none]
  · intro cells h1 h2
    unfold find_lowest_nonzero_entropy_coordinates
    rw [find_aux_no_record cells none f64MAX h1
      (fun p hp q hq hand => (h2 p hp q hq) hand.1)]

theorem C5_witness :
    find_lowest_nonzero_entropy_coordinates
        [((0, 0), some (F64.val 1)), ((0, 1), none), ((5, 5), none)] =
      Except.error (ModelError.NoValidStates (0, 1)) ∧
    find_lowest_nonzero_entropy_coordinates
        [((0, 0), some (F64.val 0)), ((0, 1), some F64.nan)] =
      Except.error ModelError.AllStatesDecided := by
  constructor
  · apply C5_first_contradiction_or_all_decided.1 [((0, 0), some (F64.val 1))]
      [((5, 5), none)] (0, 1)
    intro p hp
    simp only [List.mem_singleton] at hp
    subst hp
    simp
  · apply C5_first_contradiction_or_all_decided.2
    · intro p hp
      rcases List.mem_cons.mp hp with h | h
      · subst h; simp
      · simp only [List.mem_singleton] at h
        subst h
        simp
    · intro p hp q hq
      rcases List.mem_cons.mp hp with h | h
      · subst h
        have hq0 : (0 : ℚ) = q := F64.val.inj (Option.some.inj hq)
        intro hqpos
        rw [hq0] at hqpos
        exact lt_irrefl q hqpos
      · simp only [List.mem_singleton] at h
        subst h
        exact fun _ => F64.noConfusion (Option.some.inj hq)

/-- C6 (counterexample): a NaN entropy arising on a cell after a strictly
lower minimum has been recorded — the claim says this is flagged as
`UnexpectedNaN` at that coordinate; in fact NaN fails the `u > 0.` guard, the
cell is skipped, and the scan returns the earlier minimum. -/
theorem C6_counterexample :
    find_lowest_nonzero_entropy_coordinates
        [((0, 0), some (F64.val 1)), ((0, 1), some F64.nan)] = Except.ok (0, 0) ∧
    find_lowest_nonzero_entropy_coordinates
        [((0, 0), some (F64.val 1)), ((0, 1), some F64.nan)] ≠
      Except.error (ModelError.UnexpectedNaN (0, 1)) := by
  have h : find_lowest_nonzero_entropy_coordinates
      [((0, 0), some (F64.val 1)), ((0, 1), some F64.nan)] = Except.ok (0, 0) := by
    unfold find_lowest_nonzero_entropy_coordinates
    rw [find_aux_cons_val, if_pos (by norm_num : (0 : ℚ) < 1),
      if_pos (by norm_num [f64MAX] : (1 : ℚ) ≤ f64MAX), find_aux_cons_nan]
    rfl
  exact ⟨h, fun habs => Except.noConfusion (h.symm.trans habs)⟩

/-- C6 (amended): the `UnexpectedNaN` check is dead code.  Since `NaN > 0.`
is false, a NaN entropy never passes the guard of the recording arm; it is
skipped like a non-positive value, and the scan never returns
`UnexpectedNaN`, for any input whatsoever. -/
theorem C6_amended_no_unexpected_nan (cells : List ((ℕ × ℕ) × Option F64)) (i : ℕ × ℕ) :
    find_lowest_nonzero_entropy_coordinates cells ≠
      Except.error (ModelError.UnexpectedNaN i) := by
  intro h
  unfold find_lowest_nonzero_entropy_coordinates at h
  rcases hfa : find_aux cells none (F64.val f64MAX) with e | pr
  · rw [hfa] at h
    have he : e = ModelError.UnexpectedNaN i := Except.error.inj h
    subst he
    exact find_aux_no_nan_error cells none f64MAX i hfa
  · rw [hfa] at h
    obtain ⟨o, ent⟩ := pr
    cases o with
    | none => exact ModelError.noConfusion (Except.error.inj h)
    | some u => exact Except.noConfusion h

theorem C6_amended_witness :
    find_lowest_nonzero_entropy_coordinates [((0, 0), some F64.nan)] ≠
      Except.error (ModelError.UnexpectedNaN (0, 0)) :=
  C6_amended_no_unexpected_nan [((0, 0), some F64.nan)] (0, 0)

theorem pickWeighted_mem : ∀ (l : List (ℕ × ℕ)) (r : ℕ), l ≠ [] →
    pickWeighted l r ∈ l.map Prod.fst
  | [], _, hne => absurd rfl hne
  | [p], r, _ => by simp [pickWeighted]
  | p :: q :: rest, r, _ => by
    rw [pickWeighted]
    by_cases hr : r < p.2
    · rw [if_pos hr]
      simp
    · rw [if_neg hr]
      exact List.mem_cons_of_mem _ (pickWeighted_mem (q :: rest) (r - p.2) (by simp))

theorem maskedWeights_sound : ∀ (ws : List ℕ) (bs : List Bool) (i j w : ℕ),
    (j, w) ∈ maskedWeights i ws bs →
    ∃ k, j = i + k ∧ k < bs.length ∧ bs.getD k false = true
  | [], bs, i, j, w, h => by simp [maskedWeights] at h
  | w0 :: ws, [], i, j, w, h => by simp [maskedWeights] at h
  | w0 :: ws, b :: bs, i, j, w, h => by
    cases b
    · rw [maskedWeights] at h
      rw [if_neg Bool.false_ne_true] at h
      obtain ⟨k, hk1, hk2, hk3⟩ := maskedWeights_sound ws bs (i + 1) j w h
      refine ⟨k + 1, by omega, by simp only [List.length_cons]; omega, ?_⟩
      rw [List.getD_cons_succ]
      exact hk3
    · rw [maskedWeights] at h
      rw [if_pos rfl] at h
      rcases List.mem_cons.mp h with h0 | h1
      · have hj : j = i := congrArg Prod.fst h0
        refine ⟨0, by omega, by simp, ?_⟩
        rw [List.getD_cons_zero]
      · obtain ⟨k, hk1, hk2, hk3⟩ := maskedWeights_sound ws bs (i + 1) j w h1
        refine ⟨k + 1, by omega, by simp only [List.length_cons]; omega, ?_⟩
        rw [List.getD_cons_succ]
        exact hk3

theorem maskedWeights_ne_nil : ∀ (ws : List ℕ) (bs : List Bool) (i : ℕ),
    (∃ k, k < ws.length ∧ k < bs.length ∧ bs.getD k false = true) →
    maskedWeights i ws bs ≠ []
  | [], bs, i, hex => by
    obtain ⟨k, hkw, _, _⟩ := hex
    simp at hkw
  | w :: ws, [], i, hex => by
    obtain ⟨k, _, hkb, _⟩ := hex
    simp at hkb
  | w :: ws, b :: bs, i, hex => by
    cases b
    · rw [maskedWeights]
      rw [if_neg Bool.false_ne_true]
      apply maskedWeights_ne_nil ws bs (i + 1)
      obtain ⟨k, hkw, hkb, hkt⟩ := hex
      cases k with
      | zero =>
        rw [List.getD_cons_zero] at hkt
        exact absurd hkt (by simp)
      | succ k2 =>
        rw [List.getD_cons_succ] at hkt
        refine ⟨k2, ?_, ?_, hkt⟩
        · simp only [List.length_cons] at hkw
          omega
        · simp only [List.length_cons] at hkb
          omega
    · rw [maskedWeights]
      rw [if_pos rfl]
      simp

theorem getD_replicate_false : ∀ (n i : ℕ), (List.replicate n false).getD i false = false
  | 0, _ => by simp
  | n + 1, 0 => by rw [List.replicate_succ, List.getD_cons_zero]
  | n + 1, i + 1 => by
    rw [List.replicate_succ, List.getD_cons_succ]
    exact getD_replicate_false n i

theorem getD_replicate_set_true : ∀ (n j i : ℕ), j < n →
    (((List.replicate n false).set j true).getD i false = true ↔ i = j)
  | 0, j, i, h => by omega
  | n + 1, 0, 0, _ => by
    rw [List.replicate_succ, List.set_cons_zero, List.getD_cons_zero]
    simp
  | n + 1, 0, i + 1, _ => by
    rw [List.replicate_succ, List.set_cons_zero, List.getD_cons_succ]
    simp [getD_replicate_false n i]
  | n + 1, j + 1, 0, h => by
    rw [List.replicate_succ, List.set_cons_succ, List.getD_cons_zero]
    simp
  | n + 1, j + 1, i + 1, h => by
    rw [List.replicate_succ, List.set_cons_succ, List.getD_cons_succ]
    rw [getD_replicate_set_true n j i (by omega)]
    omega

theorem filter_id_replicate_false : ∀ n : ℕ,
    (List.replicate n false).filter (fun b => b) = []
  | 0 => rfl
  | n + 1 => by
    rw [List.replicate_succ, List.filter_cons]
    simp [filter_id_replicate_false n]

theorem filter_replicate_set_true : ∀ (n j : ℕ), j < n →
    ((((List.replicate n false).set j true).filter (fun b => b)).length = 1)
  | 0, j, h => by omega
  | n + 1, 0, _ => by
    rw [List.replicate_succ, List.set_cons_zero, List.filter_cons]
    simp [filter_id_replicate_false n]
  | n + 1, j + 1, h => by
    rw [List.replicate_succ, List.set_cons_succ, List.filter_cons]
    simp [filter_replicate_set_true n j (by omega)]

theorem eq_replicate_of_filter_nil : ∀ bs : List Bool,
    bs.filter (fun b => b) = [] → bs = List.replicate bs.length false
  | [], _ => rfl
  | b :: bs, h => by
    cases b
    · rw [List.filter_cons] at h
      simp only [Bool.false_eq_true, if_false] at h
      rw [List.length_cons, List.replicate_succ]
      rw [← eq_replicate_of_filter_nil bs h]
    · rw [List.filter_cons] at h
      simp at h

theorem single_true_structure : ∀ bs : List Bool,
    (bs.filter (fun b => b)).length = 1 →
    ∃ k, k < bs.length ∧ bs.getD k false = true ∧
      (∀ j, bs.getD j false = true → j = k) ∧
      bs = (List.replicate bs.length false).set k true
  | [], h => by simp at h
  | b :: bs, h => by
    cases b
    · rw [List.filter_cons] at h
      simp only [Bool.false_eq_true, if_false] at h
      obtain ⟨k, hk1, hk2, hk3, hk4⟩ := single_true_structure bs h
      refine ⟨k + 1, by simp only [List.length_cons]; omega, ?_, ?_, ?_⟩
      · rw [List.getD_cons_succ]
        exact hk2
      · intro j hj
        cases j with
        | zero =>
          rw [List.getD_cons_zero] at hj
          exact absurd hj (by simp)
        | succ j2 =>
          rw [List.getD_cons_succ] at hj
          have := hk3 j2 hj
          omega
      · rw [List.length_cons, List.replicate_succ, List.set_cons_succ]
        rw [← hk4]
    · rw [List.filter_cons] at h
      rw [if_pos rfl] at h
      have hnil : bs.filter (fun b => b) = [] := by
        rw [List.length_cons] at h
        exact List.length_eq_zero.mp (by omega)
      refine ⟨0, by simp, by rw [List.getD_cons_zero], ?_, ?_⟩
      · intro j hj
        cases j with
        | zero => rfl
        | succ j2 =>
          rw [List.getD_cons_succ] at hj
          rw [eq_replicate_of_filter_nil bs hnil, getD_replicate_false] at hj
          exact absurd hj (by simp)
      · rw [List.length_cons, List.replicate_succ, List.set_cons_zero]
        rw [← eq_replicate_of_filter_nil bs hnil]

/-- C8: after `collapse` on a cell with at least one possible state (and a
catalog of matching length), exactly one state bit is set, that bit was set
before the call, no previously clear bit becomes set, and a cell that was
already resolved keeps the same bitset. -/
theorem C8_collapse_invariants {α : Type} (cell : UncertainCell)
    (concrete_states : List (α × ℕ)) (r : ℕ)
    (hlen : cell.possible_states.length = concrete_states.length)
    (hset : ∃ k, k < cell.possible_states.length ∧ cell.possible_states.getD k false = true) :
    (((cell.collapse concrete_states r).possible_states.filter (fun b => b)).length = 1) ∧
    (∀ i, (cell.collapse concrete_states r).possible_states.getD i false = true →
      cell.possible_states.getD i false = true) ∧
    ((cell.possible_states.filter (fun b => b)).length = 1 →
      (cell.collapse concrete_states r).possible_states = cell.possible_states) := by
  obtain ⟨k0, hk0n, hk0t⟩ := hset
  have hne : maskedWeights 0 (concrete_states.map Prod.snd) cell.possible_states ≠ [] := by
    apply maskedWeights_ne_nil
    refine ⟨k0, ?_, hk0n, hk0t⟩
    rw [List.length_map]
    omega
  have hch : masked_weighted_choice concrete_states cell.possible_states r =
      pickWeighted (maskedWeights 0 (concrete_states.map Prod.snd) cell.possible_states)
        (r % ((maskedWeights 0 (concrete_states.map Prod.snd) cell.possible_states).map
          Prod.snd).sum) := rfl
  have hmem := pickWeighted_mem _
    (r % ((maskedWeights 0 (concrete_states.map Prod.snd) cell.possible_states).map
      Prod.snd).sum) hne
  rw [List.mem_map] at hmem
  obtain ⟨⟨j, w⟩, hjw, hjchosen⟩ := hmem
  obtain ⟨k, hkj, hkn, hkt⟩ := maskedWeights_sound _ _ 0 j w hjw
  have hchk : masked_weighted_choice concrete_states cell.possible_states r = k := by
    rw [hch, ← hjchosen]
    simpa using hkj
  have hcol : (cell.collapse concrete_states r).possible_states =
      (List.replicate cell.possible_states.length false).set
        (masked_weighted_choice concrete_states cell.possible_states r) true := rfl
  refine ⟨?_, ?_, ?_⟩
  · rw [hcol, hchk]
    exact filter_replicate_set_true _ k hkn
  · intro i hi
    rw [hcol, hchk] at hi
    have : i = k := (getD_replicate_set_true _ k i hkn).mp hi
    rw [this]
    exact hkt
  · intro hone
    obtain ⟨k1, hk1n, hk1t, hk1uniq, hk1repl⟩ := single_true_structure _ hone
    have hkeq : k = k1 := hk1uniq k hkt
    rw [hcol, hchk, hkeq]
    exact hk1repl.symm

theorem C8_witness :
    ((((UncertainCell.mk [] [true, true]).collapse [((0 : ℕ), 1), ((0 : ℕ), 3)]
        2).possible_states.filter (fun b => b)).length = 1) ∧
    (∀ i, ((UncertainCell.mk [] [true, true]).collapse [((0 : ℕ), 1), ((0 : ℕ), 3)]
        2).possible_states.getD i false = true →
      ([true, true] : List Bool).getD i false = true) ∧
    ((([true, true] : List Bool).filter (fun b => b)).length = 1 →
      ((UncertainCell.mk [] [true, true]).collapse [((0 : ℕ), 1), ((0 : ℕ), 3)]
        2).possible_states = [true, true]) :=
  C8_collapse_invariants (UncertainCell.mk [] [true, true]) [((0 : ℕ), 1), ((0 : ℕ), 3)] 2
    rfl ⟨0, by decide, by decide⟩

/-- C10: `collapse` mutates only the possible-states bitset; the cell's
possible-colors bitset is identical before and after the call. -/
theorem C10_collapse_preserves_colors {α : Type} (cell : UncertainCell)
    (concrete_states : List (α × ℕ)) (r : ℕ) :
    (cell.collapse concrete_states r).possible_colors = cell.possible_colors := rfl

theorem catalogFreq_cons (k : Array2 RGB) (c : ℕ) (rest : List (Array2 RGB × ℕ))
    (b : Array2 RGB) :
    catalogFreq ((k, c) :: rest) b = (if k = b then c else 0) + catalogFreq rest b := by
  by_cases h : k = b <;> simp [catalogFreq, List.filter_cons, h]

theorem bumpBlock_freq (b x : Array2 RGB) : ∀ acc : List (Array2 RGB × ℕ),
    catalogFreq (bumpBlock acc x) b = catalogFreq acc b + (if x = b then 1 else 0)
  | [] => by
    by_cases h : x = b <;> simp [bumpBlock, catalogFreq, List.filter_cons, h]
  | (k, c) :: rest => by
    rw [bumpBlock]
    by_cases hkx : k = x
    · rw [if_pos hkx]
      rw [catalogFreq_cons, catalogFreq_cons]
      subst hkx
      by_cases hkb : k = b
      · rw [if_pos hkb, if_pos hkb, if_pos hkb]
        omega
      · rw [if_neg hkb, if_neg hkb, if_neg hkb]
        omega
    · rw [if_neg hkx]
      rw [catalogFreq_cons, catalogFreq_cons, bumpBlock_freq b x rest]
      omega

theorem bumpBlock_sum (x : Array2 RGB) : ∀ acc : List (Array2 RGB × ℕ),
    ((bumpBlock acc x).map Prod.snd).sum = (acc.map Prod.snd).sum + 1
  | [] => rfl
  | (k, c) :: rest => by
    rw [bumpBlock]
    by_cases hkx : k = x
    · rw [if_pos hkx]
      simp only [List.map_cons, List.sum_cons]
      omega
    · rw [if_neg hkx]
      simp only [List.map_cons, List.sum_cons, bumpBlock_sum x rest]
      omega

theorem foldl_bump_freq (l : List (Array2 RGB)) : ∀ (acc : List (Array2 RGB × ℕ))
    (b : Array2 RGB),
    catalogFreq (l.foldl bumpBlock acc) b = catalogFreq acc b + l.count b := by
  induction l with
  | nil =>
    intro acc b
    simp
  | cons x rest ih =>
    intro acc b
    rw [List.foldl_cons, ih, bumpBlock_freq, List.count_cons]
    by_cases h : x = b
    · simp [h]
      omega
    · simp [h]

theorem foldl_bump_sum (l : List (Array2 RGB)) : ∀ acc : List (Array2 RGB × ℕ),
    ((l.foldl bumpBlock acc).map Prod.snd).sum = (acc.map Prod.snd).sum + l.length := by
  induction l with
  | nil =>
    intro acc
    simp
  | cons x rest ih =>
    intro acc
    rw [List.foldl_cons, ih, bumpBlock_sum]
    simp only [List.length_cons]
    omega

theorem windowsList_length (img : Array2 RGB) (n : ℕ) :
    (windowsList img n).length = (img.rows + 1 - n) * (img.cols + 1 - n) := by
  unfold windowsList
  rw [List.length_flatMap]
  simp only [Function.comp_def]
  have hinner : ∀ i ∈ List.range (img.rows + 1 - n),
      ((List.range (img.cols + 1 - n)).map (fun j => extract_block img n i j)).length
        = img.cols + 1 - n := by
    intro i _
    rw [List.length_map, List.length_range]
  rw [List.map_congr_left hinner]
  rw [List.map_const']
  rw [List.sum_replicate, List.length_range, smul_eq_mul]

/-- C9: the catalog's frequencies sum to `(H − N + 1) · (W − N + 1)`, and each
block's recorded frequency equals its number of occurrences under stride-1,
non-wrapping window extraction. -/
theorem C9_catalog_counts (img : Array2 RGB) (n : ℕ)
    (_h0 : 0 < n) (h1 : n ≤ img.rows) (h2 : n ≤ img.cols) :
    ((build_block_frequency_map img n).map Prod.snd).sum
        = (img.rows - n + 1) * (img.cols - n + 1) ∧
    ∀ b : Array2 RGB, catalogFreq (build_block_frequency_map img n) b
        = (windowsList img n).count b := by
  constructor
  · rw [build_block_frequency_map, foldl_bump_sum, windowsList_length]
    have ha : img.rows + 1 - n = img.rows - n + 1 := by omega
    have hb : img.cols + 1 - n = img.cols - n + 1 := by omega
    rw [ha, hb]
    simp
  · intro b
    rw [build_block_frequency_map, foldl_bump_freq]
    simp [catalogFreq]

theorem C9_witness :
    (((build_block_frequency_map ⟨2, 2, [0, 1, 1, 0]⟩ 1).map Prod.snd).sum
        = (2 - 1 + 1) * (2 - 1 + 1)) ∧
    catalogFreq (build_block_frequency_map ⟨2, 2, [0, 1, 1, 0]⟩ 1) ⟨1, 1, [0]⟩
        = (windowsList ⟨2, 2, [0, 1, 1, 0]⟩ 1).count ⟨1, 1, [0]⟩ :=
  ⟨(C9_catalog_counts ⟨2, 2, [0, 1, 1, 0]⟩ 1 (by decide) (by decide) (by decide)).1,
   (C9_catalog_counts ⟨2, 2, [0, 1, 1, 0]⟩ 1 (by decide) (by decide) (by decide)).2 ⟨1, 1, [0]⟩⟩
